import Mathlib

/-!
# Scam Guard: the text classifier of `whatsapp-content.js`

A shallow embedding of `isSuspiciousText`, `buildAdviceText`,
`createWarningElement` and `markMessageElement`, and the properties of the
specification settled over it.

Strings are lists of characters.  The source works on UTF-16 code units; every
test it makes (substring search for ASCII phrases, the character classes `\s`,
`\d`, `\b` and the literals of the two regular expressions) gives the same
answer on code points, because a character outside the basic plane is neither
a space, a digit nor a word character, and equals no literal of the patterns.

The score is a natural number: the source adds small positive constants to a
double, which is exact far beyond any total a string of admissible length can
reach.
-/

namespace ScamGuard

/-- A string of the script. -/
abbrev Str := List Char

/-! ## Platform functions

`String.prototype.toLowerCase` and the `URL` constructor belong to the
browser, not to the script.  They are parameters of the embedding. -/

/-- The two browser functions the classifier calls. -/
structure Host where
  /-- The function `String.prototype.toLowerCase`. -/
  toLowerCase : Str → Str
  /-- The value of `new URL(url).hostname`, or `none` when the constructor throws. -/
  hostname : Str → Option Str

/-! ## String primitives -/

/-- The test `s.includes(sub)`: `sub` occurs in `s` as a contiguous block. -/
def includes : Str → Str → Bool
  | [], sub => sub.isPrefixOf []
  | c :: s, sub => sub.isPrefixOf (c :: s) || includes s sub

/-- The test `s.endsWith(suffix)`. -/
def endsWith (s suffix : Str) : Bool :=
  suffix.isSuffixOf s

/-- Adding one value to a `Set`: nothing happens when it is already a member,
otherwise it becomes the last member. -/
def setAdd (members : List Str) (x : Str) : List Str :=
  if x ∈ members then members else members ++ [x]

/-- The expression `Array.from(new Set(xs))`: the members in order of first insertion. -/
def arrayFromSet (xs : List Str) : List Str :=
  xs.foldl setAdd []

/-! ## Regular expressions

The two patterns of the script use literals, `\b`, the classes `\d`, `\s` and
`[^\s]`, sequencing, alternation, `?` and the quantifiers `{3,}` and `+` on a
class.  `Rx` is that fragment; `Rx.run` lists the positions where a match
attempt started at a position can end, in the order the backtracking matcher
of the language tries them (greedy quantifiers first, left alternative
first). -/

/-- The character classes that occur in the patterns. -/
inductive CharClass
  | digit
  | space
  | notSpace
  deriving DecidableEq, Repr

/-- The class `\s`: the white space and line terminator characters of the language. -/
def isSpace (c : Char) : Bool :=
  let n := c.toNat
  n = 0x09 || n = 0x0A || n = 0x0B || n = 0x0C || n = 0x0D || n = 0x20 || n = 0xA0 ||
  n = 0x1680 || (0x2000 ≤ n && n ≤ 0x200A) || n = 0x2028 || n = 0x2029 || n = 0x202F ||
  n = 0x205F || n = 0x3000 || n = 0xFEFF

/-- The class `\d`. -/
def isDigit (c : Char) : Bool :=
  let n := c.toNat
  0x30 ≤ n && n ≤ 0x39

/-- The word characters of `\b`: ASCII letters, digits and the underscore. -/
def isWordChar (c : Char) : Bool :=
  let n := c.toNat
  (0x41 ≤ n && n ≤ 0x5A) || (0x61 ≤ n && n ≤ 0x7A) || (0x30 ≤ n && n ≤ 0x39) || n = 0x5F

/-- Membership in a class. -/
def CharClass.test : CharClass → Char → Bool
  | .digit, c => isDigit c
  | .space, c => isSpace c
  | .notSpace, c => !isSpace c

/-- Comparison of an input character with a pattern literal under the flag `i`.
The language compares the upper-cased forms and never lets a character outside
ASCII fold onto an ASCII one; every literal of the two patterns is either an
ASCII character or a symbol without case (`₹`, `£`), for which that rule is
the ASCII upper-casing used here. -/
def sameIgnoringCase (x lit : Char) : Bool :=
  x.toUpper == lit.toUpper

/-- A position in the subject: the characters already passed (nearest first)
and the characters still ahead. -/
structure Cursor where
  before : List Char
  after : List Char
  deriving DecidableEq, Repr

/-- Whether the character next to a position, if any, is a word character. -/
def wordAt : Option Char → Bool
  | none => false
  | some c => isWordChar c

/-- The fragment of regular expressions the script uses. -/
inductive Rx
  | empty
  | char (lit : Char)
  | wordBoundary
  | cls (k : CharClass)
  | seq (a b : Rx)
  | alt (a b : Rx)
  | opt (a : Rx)
  | atLeast (n : Nat) (k : CharClass)
  deriving Repr

/-- The greedy tail of a class quantifier: the longest run first, then each shorter one. -/
def starRun (k : CharClass) : List Char → List Char → List Cursor
  | b, [] => [⟨b, []⟩]
  | b, x :: a => if k.test x then starRun k (x :: b) a ++ [⟨b, x :: a⟩] else [⟨b, x :: a⟩]

/-- The quantifier `{n,}` on a class: `n` compulsory characters, then the greedy tail. -/
def atLeastRun (k : CharClass) : Nat → List Char → List Char → List Cursor
  | 0, b, a => starRun k b a
  | _ + 1, _, [] => []
  | n + 1, b, x :: a => if k.test x then atLeastRun k n (x :: b) a else []

/-- The ends of the matches of a pattern attempted at a position, in the order
in which backtracking reaches them. -/
def Rx.run : Rx → Cursor → List Cursor
  | .empty, cur => [cur]
  | .char lit, cur =>
    match cur.after with
    | [] => []
    | x :: a => if sameIgnoringCase x lit then [⟨x :: cur.before, a⟩] else []
  | .wordBoundary, cur =>
    if wordAt cur.before.head? != wordAt cur.after.head? then [cur] else []
  | .cls k, cur =>
    match cur.after with
    | [] => []
    | x :: a => if k.test x then [⟨x :: cur.before, a⟩] else []
  | .seq a b, cur => (a.run cur).flatMap (fun mid => b.run mid)
  | .alt a b, cur => a.run cur ++ b.run cur
  | .opt a, cur => a.run cur ++ [cur]
  | .atLeast n k, cur => atLeastRun k n cur.before cur.after

/-- Whether an attempt at some position from the given one on succeeds. -/
def Rx.testFrom (r : Rx) : List Char → List Char → Bool
  | b, [] => !(r.run ⟨b, []⟩).isEmpty
  | b, x :: a => !(r.run ⟨b, x :: a⟩).isEmpty || Rx.testFrom r (x :: b) a

/-- The method `RegExp.prototype.test` of a pattern without the flag `g`. -/
def Rx.test (r : Rx) (text : Str) : Bool :=
  r.testFrom [] text

/-- The scan of `String.prototype.match` with the flag `g`.  `skip` counts the
characters of the last match still to be passed; at a free position the first
end that backtracking reaches decides the match, and an empty match moves the
scan on by one character. -/
def Rx.matchAllFrom (r : Rx) : Nat → List Char → List Char → List Str
  | _ + 1, _, [] => []
  | skip + 1, b, x :: a => Rx.matchAllFrom r skip (x :: b) a
  | 0, b, [] =>
    match (r.run ⟨b, []⟩).head? with
    | none => []
    | some _ => [[]]
  | 0, b, x :: a =>
    match (r.run ⟨b, x :: a⟩).head? with
    | none => Rx.matchAllFrom r 0 (x :: b) a
    | some stop =>
      let len := (x :: a).length - stop.after.length
      (x :: a).take len :: Rx.matchAllFrom r (len - 1) (x :: b) a

/-- The value of `text.match(r) || []` for a pattern with the flag `g`. -/
def Rx.matchAll (r : Rx) (text : Str) : List Str :=
  r.matchAllFrom 0 [] text

/-- A run of literals. -/
def Rx.word : List Char → Rx
  | [] => .empty
  | c :: cs => .seq (.char c) (Rx.word cs)

/-- An alternation of several patterns, the first one tried first. -/
def Rx.oneOf : Rx → List Rx → Rx
  | r, [] => r
  | r, s :: rest => .alt r (Rx.oneOf s rest)

/-! ## The classifier -/

/-- An entry of the rule table. -/
structure Rule where
  id : String
  phrases : List Str
  score : Nat

/-- The table `DETECTION_RULES`. -/
def DETECTION_RULES : List Rule := [
  ⟨"otp_request", ["otp".toList, "one time password".toList, "verification code".toList, "verification otp".toList], 4⟩,
  ⟨"bank_details", ["bank account".toList, "account number".toList, "ifsc".toList, "iban".toList], 4⟩,
  ⟨"card_details", ["cvv".toList, "pin code".toList, "card number".toList, "debit card".toList, "credit card".toList], 5⟩,
  ⟨"prize_lottery", ["you have won".toList, "congratulations you won".toList, "lottery winner".toList, "prize money".toList], 4⟩,
  ⟨"urgent_action", ["urgent action".toList, "limited time".toList, "act now".toList, "immediately".toList, "within 5 minutes".toList], 2⟩,
  ⟨"money_request", ["send money".toList, "wire money".toList, "transfer money".toList, "pay the fee".toList], 4⟩,
  ⟨"giftcard_crypto", ["gift card".toList, "google play card".toList, "itunes card".toList, "bitcoin".toList, "crypto".toList], 4⟩,
  ⟨"investment", ["investment opportunity".toList, "double your money".toList, "guaranteed returns".toList], 3⟩,
  ⟨"inheritance", ["inheritance".toList, "foreign fund".toList, "unclaimed funds".toList], 3⟩,
  ⟨"keep_secret", ["do not tell anyone".toList, "keep this confidential".toList], 3⟩,
  ⟨"account_verify", ["verify your account".toList, "confirm your identity".toList, "kyc update".toList], 3⟩
]

/-- The two accumulators of `isSuspiciousText`. -/
structure Acc where
  matchedReasons : List Str
  totalScore : Nat
  deriving DecidableEq, Repr

/-- The inner loop over the phrases of one rule, left at the first phrase found. -/
def scanPhrases (lowered : Str) (rule : Rule) : List Str → Acc → Acc
  | [], acc => acc
  | phrase :: rest, acc =>
    if includes lowered phrase then
      ⟨acc.matchedReasons ++ [phrase], acc.totalScore + rule.score⟩
    else scanPhrases lowered rule rest acc

/-- The outer loop over the rules. -/
def scanRules (lowered : Str) : List Rule → Acc → Acc
  | [], acc => acc
  | rule :: rest, acc => scanRules lowered rest (scanPhrases lowered rule rule.phrases acc)

/-- The alternatives of the pattern that may stand before a number:
`rs\.?|inr|₹|usd|\$|eur|£|rupees|dollars?`. -/
def currencyBefore : Rx :=
  Rx.oneOf (.seq (Rx.word "rs".toList) (.opt (.char '.')))
    [Rx.word "inr".toList, .char '₹', Rx.word "usd".toList, .char '$', Rx.word "eur".toList,
     .char '£', Rx.word "rupees".toList, .seq (Rx.word "dollar".toList) (.opt (.char 's'))]

/-- The alternatives of the pattern that may stand after a number: `rs\.?|inr|₹|\$|eur|£`. -/
def currencyAfter : Rx :=
  Rx.oneOf (.seq (Rx.word "rs".toList) (.opt (.char '.')))
    [Rx.word "inr".toList, .char '₹', .char '$', Rx.word "eur".toList, .char '£']

/-- The first alternative of `moneyRegex`: `\b(?:…)\s?\d{3,}`. -/
def moneyBefore : Rx :=
  .seq .wordBoundary (.seq currencyBefore (.seq (.opt (.cls .space)) (.atLeast 3 .digit)))

/-- The second alternative of `moneyRegex`: `\d{3,}\s?(?:…)`. -/
def moneyAfter : Rx :=
  .seq (.atLeast 3 .digit) (.seq (.opt (.cls .space)) currencyAfter)

/-- The pattern `moneyRegex`, matched with the flag `i`. -/
def moneyRegex : Rx :=
  .alt moneyBefore moneyAfter

/-- The pattern `urlRegex`, `https?:\/\/[^\s]+`, matched with the flags `g` and `i`. -/
def urlRegex : Rx :=
  .seq (Rx.word "http".toList) (.seq (.opt (.char 's')) (.seq (Rx.word "://".toList)
    (.atLeast 1 .notSpace)))

/-- The step after the rule table: the money pattern. -/
def scanMoney (text : Str) (acc : Acc) : Acc :=
  if moneyRegex.test text then
    ⟨acc.matchedReasons ++ ["large money amount mentioned".toList], acc.totalScore + 3⟩
  else acc

/-- The list `suspiciousShorteners`. -/
def suspiciousShorteners : List Str :=
  ["bit.ly".toList, "tinyurl.com".toList, "goo.gl".toList, "ow.ly".toList, "t.co".toList]

/-- The condition of the innermost `if`: the host is the shortener or one of its subdomains. -/
def hostMatches (host shortener : Str) : Bool :=
  host == shortener || endsWith host ('.' :: shortener)

/-- The loop over the shorteners for one host name. -/
def scanShorteners (host : Str) : List Str → Acc → Acc
  | [], acc => acc
  | shortener :: rest, acc =>
    if hostMatches host shortener then
      scanShorteners host rest
        ⟨acc.matchedReasons ++ ["link via url shortener (".toList ++ shortener ++ ")".toList],
         acc.totalScore + 3⟩
    else scanShorteners host rest acc

/-- The loop over the extracted links; a link the `URL` constructor rejects is passed over. -/
def scanUrls (H : Host) : List Str → Acc → Acc
  | [], acc => acc
  | url :: rest, acc =>
    match H.hostname url with
    | none => scanUrls H rest acc
    | some name => scanUrls H rest (scanShorteners (H.toLowerCase name) suspiciousShorteners acc)

/-- The object `isSuspiciousText` returns. -/
structure Verdict where
  suspicious : Bool
  reasons : List Str
  urls : List Str
  score : Nat
  deriving DecidableEq, Repr

/-- The accumulators when the three scans are over. -/
def finalAcc (H : Host) (text : Str) : Acc :=
  scanUrls H (urlRegex.matchAll text)
    (scanMoney text (scanRules (H.toLowerCase text) DETECTION_RULES ⟨[], 0⟩))

/-- The function `isSuspiciousText`. -/
def isSuspiciousText (H : Host) (text : Str) : Verdict :=
  let acc := finalAcc H text
  { suspicious := decide (3 ≤ acc.totalScore)
    reasons := arrayFromSet acc.matchedReasons
    urls := urlRegex.matchAll text
    score := acc.totalScore }

/-! ## Advice and the warning element -/

/-- The array `baseAdvice`. -/
def baseAdvice : List Str := [
  "Do not share OTPs, passwords, PINs, or card details.".toList,
  "Do not click on suspicious links or download unknown attachments.".toList,
  "Do not send money, gift cards, or crypto to unknown people.".toList,
  "Verify requests through official channels (bank app, company website, phone number from their official site).".toList,
  "If unsure, ignore the message and do not reply.".toList
]

/-- The tip of the first branch. -/
def otpTip : Str :=
  "Legitimate companies and banks will never ask for OTPs or full passwords over chat.".toList

/-- The tip of the second branch. -/
def prizeTip : Str :=
  "Random messages telling you that you won money or prizes are almost always scams.".toList

/-- The tip of the third branch. -/
def moneyTip : Str :=
  "Never send money or gift cards to someone you only know through chat.".toList

/-- The tip of the fourth branch. -/
def shortenerTip : Str :=
  "Shortened links can hide the real website; open them only if you fully trust the sender.".toList

/-- The body of the loop of `buildAdviceText`: what one reason pushes onto `extra`. -/
def adviceFor (reason : Str) : List Str :=
  if includes reason "otp".toList || includes reason "password".toList
      || includes reason "pin".toList then [otpTip]
  else if includes reason "won".toList || includes reason "lottery".toList
      || includes reason "prize".toList then [prizeTip]
  else if includes reason "send money".toList || includes reason "gift card".toList
      || includes reason "bitcoin".toList || includes reason "crypto".toList then [moneyTip]
  else if includes reason "url shortener".toList then [shortenerTip]
  else []

/-- The array `extra` after the loop over the reasons. -/
def extraAdvice : List Str → List Str
  | [] => []
  | reason :: rest => adviceFor reason ++ extraAdvice rest

/-- The function `buildAdviceText`. -/
def buildAdviceText (reasons : List Str) : List Str :=
  arrayFromSet (baseAdvice ++ extraAdvice reasons)

/-- The content of the element `createWarningElement` builds: the title, the
line of reasons when there is one, and the items of the advice list. -/
structure Warning where
  title : Str
  reasonsLine : Option Str
  advice : List Str
  deriving DecidableEq, Repr

/-- The method `Array.prototype.join` on strings. -/
def join (sep : Str) : List Str → Str
  | [] => []
  | [x] => x
  | x :: y :: rest => x ++ sep ++ join sep (y :: rest)

/-- The variable `riskLabel` of `createWarningElement`. -/
def riskLabel (score : Nat) : Str :=
  if 7 ≤ score then "high risk".toList
  else if score < 5 then "medium risk".toList
  else "medium risk".toList

/-- The function `createWarningElement`, on the text the element carries. -/
def createWarningElement (analysis : Verdict) : Warning :=
  { title := "Scam Guard: ".toList ++ riskLabel analysis.score ++ " message".toList
    reasonsLine :=
      if 0 < analysis.reasons.length then
        some ("Suspicious because: ".toList ++ join ", ".toList analysis.reasons)
      else none
    advice := buildAdviceText analysis.reasons }

/-! ## Marking a message bubble -/

/-- The part of a bubble element `markMessageElement` reads and writes: the
attribute `data-scam-guard-checked`, the two style properties, and the
children appended to it. -/
structure Bubble where
  checked : Bool
  border : Option Str
  borderRadius : Option Str
  warnings : List Warning
  deriving DecidableEq, Repr

/-- The function `markMessageElement` on the bubble it resolved. -/
def markMessageElement (bubble : Bubble) (analysis : Verdict) : Bubble :=
  if bubble.checked then bubble
  else if !analysis.suspicious then { bubble with checked := true }
  else
    { checked := true
      border := some "2px solid #e53935".toList
      borderRadius := some "8px".toList
      warnings := bubble.warnings ++ [createWarningElement analysis] }

/-! ## A reference host

A host for evaluating examples.  It lower-cases ASCII letters, and reads the
host name of a link of the plain shape `scheme://host/path`; on the strings of
the examples below it agrees with the browser. -/

/-- The host name of a link of the shape `scheme://host` followed by nothing or by `/…`. -/
def plainHostname (url : Str) : Option Str :=
  let rest :=
    if "https://".toList.isPrefixOf (url.map Char.toLower) then url.drop 8
    else if "http://".toList.isPrefixOf (url.map Char.toLower) then url.drop 7
    else []
  let name := rest.takeWhile (fun c => c != '/')
  if name.isEmpty then none else some (name.map Char.toLower)

/-- The reference host. -/
def refHost : Host :=
  { toLowerCase := fun s => s.map Char.toLower
    hostname := plainHostname }

/-! ## Definitions for the statements

The scans in the words of the specification (a rule fires, the sum over the
rules that fire, a shortener link), to be compared with the loops above, and
the constants the statements name. -/

/-- A rule fires when one of its phrases occurs in the lower-cased text. -/
def Rule.fires (lowered : Str) (rule : Rule) : Bool :=
  rule.phrases.any (fun phrase => includes lowered phrase)

/-- The first phrase of a rule, in list order, that occurs in the lower-cased text. -/
def Rule.firstPhrase (lowered : Str) (rule : Rule) : Option Str :=
  rule.phrases.find? (fun phrase => includes lowered phrase)

/-- The sum of the scores of the rules that fire, each counted once. -/
def specRuleScore (lowered : Str) (rules : List Rule) : Nat :=
  ((rules.filter (Rule.fires lowered)).map Rule.score).sum

/-- One reason per rule that fires: its first phrase that occurs. -/
def specRuleReasons (lowered : Str) (rules : List Rule) : List Str :=
  rules.filterMap (Rule.firstPhrase lowered)

/-- A link counts as a shortener link when the `URL` constructor accepts it and
its lower-cased host name is a listed shortener or a subdomain of one. -/
def isShortenerUrl (H : Host) (url : Str) : Bool :=
  match H.hostname url with
  | none => false
  | some name => suspiciousShorteners.any (fun s => hostMatches (H.toLowerCase name) s)

/-- The reason pushed for a shortener. -/
def shortenerReason (shortener : Str) : Str :=
  "link via url shortener (".toList ++ shortener ++ ")".toList

/-- The reason pushed when the money pattern matches. -/
def moneyReason : Str :=
  "large money amount mentioned".toList

/-- What one link pushes onto the reasons. -/
def urlReasons (H : Host) (url : Str) : List Str :=
  match H.hostname url with
  | none => []
  | some name =>
    (suspiciousShorteners.filter (hostMatches (H.toLowerCase name))).map shortenerReason

/-- The contribution of the money pattern to the score. -/
def moneyScore (text : Str) : Nat :=
  if moneyRegex.test text then 3 else 0

/-- The contribution of the money pattern to the reasons. -/
def moneyReasons (text : Str) : List Str :=
  if moneyRegex.test text then [moneyReason] else []

/-- The rule `card_details` of the table. -/
def cardDetails : Rule :=
  ⟨"card_details", ["cvv".toList, "pin code".toList, "card number".toList, "debit card".toList,
    "credit card".toList], 5⟩

/-- The currency words that may stand before a number at a word boundary. -/
def wordTokens : List Str :=
  ["rs".toList, "inr".toList, "usd".toList, "eur".toList, "rupees".toList, "dollars".toList]

/-- The currency tokens that may stand after a number. -/
def suffixTokens : List Str :=
  ["rs".toList, "inr".toList, "₹".toList, "$".toList, "eur".toList, "£".toList]

/-- The four targeted tips, in the order of the branches. -/
def targetedTips : List Str :=
  [otpTip, prizeTip, moneyTip, shortenerTip]

/-! ## Lemmas on sets -/

theorem mem_foldl_setAdd (xs : List Str) (acc : List Str) (x : Str) :
    x ∈ xs.foldl setAdd acc ↔ x ∈ acc ∨ x ∈ xs := by
  induction xs generalizing acc with
  | nil => simp
  | cons y ys ih =>
    rw [List.foldl_cons, ih]
    unfold setAdd
    by_cases hy : y ∈ acc
    · simp only [hy, if_true, List.mem_cons]
      constructor
      · rintro (h | h)
        · exact Or.inl h
        · exact Or.inr (Or.inr h)
      · rintro (h | h | h)
        · exact Or.inl h
        · exact Or.inl (h ▸ hy)
        · exact Or.inr h
    · simp only [hy, if_false, List.mem_append, List.mem_singleton, List.mem_cons]
      tauto

theorem nodup_foldl_setAdd (xs : List Str) (acc : List Str) (h : acc.Nodup) :
    (xs.foldl setAdd acc).Nodup := by
  induction xs generalizing acc with
  | nil => simpa using h
  | cons y ys ih =>
    rw [List.foldl_cons]
    apply ih
    unfold setAdd
    by_cases hy : y ∈ acc
    · simpa [hy] using h
    · simp only [hy, if_false]
      exact List.Nodup.append h (List.nodup_singleton y) (by simpa using hy)

theorem nodup_arrayFromSet (xs : List Str) : (arrayFromSet xs).Nodup :=
  nodup_foldl_setAdd xs [] List.nodup_nil

theorem mem_arrayFromSet (xs : List Str) (x : Str) : x ∈ arrayFromSet xs ↔ x ∈ xs := by
  unfold arrayFromSet
  rw [mem_foldl_setAdd]
  simp

theorem arrayFromSet_eq_nil (xs : List Str) : arrayFromSet xs = [] ↔ xs = [] := by
  constructor
  · intro h
    cases xs with
    | nil => rfl
    | cons y ys =>
      have : y ∈ arrayFromSet (y :: ys) := (mem_arrayFromSet _ _).2 (List.mem_cons_self _ _)
      rw [h] at this
      exact absurd this (List.not_mem_nil _)
  · intro h
    subst h
    rfl

theorem foldl_setAdd_fresh (base : List Str) (xs acc : List Str)
    (h : ∀ x ∈ xs, x ∉ base) :
    xs.foldl setAdd (base ++ acc) = base ++ xs.foldl setAdd acc := by
  induction xs generalizing acc with
  | nil => rfl
  | cons y ys ih =>
    have hy : y ∉ base := h y (List.mem_cons_self _ _)
    have hys : ∀ x ∈ ys, x ∉ base := fun x hx => h x (List.mem_cons_of_mem _ hx)
    rw [List.foldl_cons, List.foldl_cons]
    have step : setAdd (base ++ acc) y = base ++ setAdd acc y := by
      unfold setAdd
      by_cases hacc : y ∈ acc
      · simp [hacc]
      · simp [hacc, hy, List.append_assoc]
    rw [step, ih _ hys]

theorem foldl_setAdd_nodup_self (xs acc : List Str) (h : (acc ++ xs).Nodup) :
    xs.foldl setAdd acc = acc ++ xs := by
  induction xs generalizing acc with
  | nil => simp
  | cons y ys ih =>
    rw [List.foldl_cons]
    have hy : y ∉ acc := by
      intro hmem
      have := List.nodup_append.1 h
      exact this.2.2 hmem (List.mem_cons_self _ _)
    have step : setAdd acc y = acc ++ [y] := by
      unfold setAdd
      simp [hy]
    rw [step, ih]
    · simp
    · simpa using h

theorem arrayFromSet_append_fresh (base xs : List Str) (hb : base.Nodup)
    (h : ∀ x ∈ xs, x ∉ base) :
    arrayFromSet (base ++ xs) = base ++ arrayFromSet xs := by
  unfold arrayFromSet
  rw [List.foldl_append, foldl_setAdd_nodup_self base [] (by simpa using hb)]
  simpa using foldl_setAdd_fresh base xs [] h

/-! ## Lemmas on the three scans -/

theorem scanPhrases_eq (lowered : Str) (rule : Rule) (phrases : List Str) (acc : Acc) :
    scanPhrases lowered rule phrases acc =
      match phrases.find? (fun phrase => includes lowered phrase) with
      | some phrase => ⟨acc.matchedReasons ++ [phrase], acc.totalScore + rule.score⟩
      | none => acc := by
  induction phrases with
  | nil => rfl
  | cons p ps ih =>
    cases hp : includes lowered p with
    | true => simp [scanPhrases, List.find?, hp]
    | false => simp [scanPhrases, List.find?, hp, ih]

theorem firstPhrase_isSome (lowered : Str) (rule : Rule) :
    (rule.firstPhrase lowered).isSome = rule.fires lowered := by
  unfold Rule.firstPhrase Rule.fires
  rw [Bool.eq_iff_iff]
  simp [List.find?_isSome, List.any_eq_true]

theorem scanRules_eq (lowered : Str) (rules : List Rule) (acc : Acc) :
    scanRules lowered rules acc =
      ⟨acc.matchedReasons ++ specRuleReasons lowered rules,
       acc.totalScore + specRuleScore lowered rules⟩ := by
  induction rules generalizing acc with
  | nil => simp [scanRules, specRuleReasons, specRuleScore]
  | cons r rs ih =>
    unfold scanRules
    rw [ih, scanPhrases_eq]
    have hs := firstPhrase_isSome lowered r
    unfold specRuleReasons specRuleScore
    cases hfp : r.firstPhrase lowered with
    | none =>
      rw [hfp] at hs
      have hf : r.fires lowered = false := by simpa using hs.symm
      have hfind : List.find? (fun phrase => includes lowered phrase) r.phrases = none := hfp
      simp [hfind, List.filterMap_cons, hfp, List.filter_cons, hf]
    | some p =>
      rw [hfp] at hs
      have hf : r.fires lowered = true := by simpa using hs.symm
      have hfind : List.find? (fun phrase => includes lowered phrase) r.phrases = some p := hfp
      simp [hfind, List.filterMap_cons, hfp, List.filter_cons, hf, Nat.add_assoc]

theorem scanShorteners_eq (host : Str) (shorteners : List Str) (acc : Acc) :
    scanShorteners host shorteners acc =
      ⟨acc.matchedReasons ++ (shorteners.filter (hostMatches host)).map shortenerReason,
       acc.totalScore + 3 * (shorteners.filter (hostMatches host)).length⟩ := by
  induction shorteners generalizing acc with
  | nil => simp [scanShorteners]
  | cons s ss ih =>
    unfold scanShorteners
    by_cases hm : hostMatches host s = true
    · simp only [hm, if_true, ih, List.filter_cons, List.map_cons, List.length_cons]
      simp only [shortenerReason, List.append_assoc, List.singleton_append, Acc.mk.injEq,
        true_and]
      omega
    · simp only [hm, if_false, ih, List.filter_cons]
      simp

theorem includes_iff_occurs (s sub : Str) : includes s sub = true ↔ sub <:+: s := by
  induction s with
  | nil =>
    simp only [includes, List.isPrefixOf_iff_prefix, List.prefix_nil, List.infix_nil]
  | cons c s ih =>
    simp only [includes, Bool.or_eq_true, List.isPrefixOf_iff_prefix, ih, List.infix_cons_iff]

theorem hostMatches_iff (host shortener : Str) :
    hostMatches host shortener = true ↔ host = shortener ∨ ('.' :: shortener) <:+ host := by
  simp [hostMatches, endsWith, List.isSuffixOf_iff_suffix]

theorem suffix_of_hostMatches {host shortener : Str} (h : hostMatches host shortener = true) :
    shortener <:+ host := by
  rcases (hostMatches_iff host shortener).1 h with h | h
  · exact h ▸ List.suffix_refl _
  · exact (List.suffix_cons _ _).trans h

theorem shorteners_not_nested :
    ∀ s ∈ suspiciousShorteners, ∀ t ∈ suspiciousShorteners, s.isSuffixOf t = true → s = t := by
  decide

theorem shortener_unique (host s t : Str) (hs : s ∈ suspiciousShorteners)
    (ht : t ∈ suspiciousShorteners) (hms : hostMatches host s = true)
    (hmt : hostMatches host t = true) : s = t := by
  rcases List.suffix_or_suffix_of_suffix (suffix_of_hostMatches hms) (suffix_of_hostMatches hmt)
    with h | h
  · exact shorteners_not_nested s hs t ht (List.isSuffixOf_iff_suffix.2 h)
  · exact (shorteners_not_nested t ht s hs (List.isSuffixOf_iff_suffix.2 h)).symm

theorem filter_length_le_one {α : Type} (l : List α) (p : α → Bool) (hl : l.Nodup)
    (hp : ∀ a ∈ l, ∀ b ∈ l, p a = true → p b = true → a = b) : (l.filter p).length ≤ 1 := by
  have hnd : (l.filter p).Nodup := hl.filter _
  match hf : l.filter p with
  | [] => simp
  | [_] => simp
  | a :: b :: t =>
    exfalso
    have ha : a ∈ l.filter p := by rw [hf]; simp
    have hb : b ∈ l.filter p := by rw [hf]; simp
    rw [List.mem_filter] at ha hb
    have hab : a = b := hp a ha.1 b hb.1 ha.2 hb.2
    rw [hf, hab] at hnd
    simp at hnd

theorem shortener_matches_length (host : Str) :
    (suspiciousShorteners.filter (hostMatches host)).length =
      if suspiciousShorteners.any (hostMatches host) then 1 else 0 := by
  have hle : (suspiciousShorteners.filter (hostMatches host)).length ≤ 1 :=
    filter_length_le_one _ _ (by decide)
      (fun a ha b hb hpa hpb => shortener_unique host a b ha hb hpa hpb)
  by_cases hany : suspiciousShorteners.any (hostMatches host) = true
  · rw [if_pos hany]
    obtain ⟨s, hs, hm⟩ := List.any_eq_true.1 hany
    have hmem : s ∈ suspiciousShorteners.filter (hostMatches host) := List.mem_filter.2 ⟨hs, hm⟩
    have hpos : 0 < (suspiciousShorteners.filter (hostMatches host)).length :=
      List.length_pos_of_mem hmem
    omega
  · rw [if_neg hany]
    have hnone : suspiciousShorteners.filter (hostMatches host) = [] := by
      rw [List.filter_eq_nil_iff]
      intro s hs hm
      exact hany (List.any_eq_true.2 ⟨s, hs, hm⟩)
    rw [hnone]
    rfl

theorem urlReasons_length (H : Host) (url : Str) :
    (urlReasons H url).length = if isShortenerUrl H url then 1 else 0 := by
  unfold urlReasons isShortenerUrl
  cases H.hostname url with
  | none => simp
  | some name => simp only [List.length_map, shortener_matches_length]

theorem scanUrls_eq (H : Host) (urls : List Str) (acc : Acc) :
    scanUrls H urls acc =
      ⟨acc.matchedReasons ++ urls.flatMap (urlReasons H),
       acc.totalScore + 3 * (urls.filter (isShortenerUrl H)).length⟩ := by
  induction urls generalizing acc with
  | nil => simp [scanUrls]
  | cons u us ih =>
    have hlen := urlReasons_length H u
    unfold scanUrls
    unfold urlReasons isShortenerUrl at hlen
    cases hh : H.hostname u with
    | none =>
      simp only [ih, List.flatMap_cons, urlReasons, isShortenerUrl, hh, List.filter_cons]
      simp
    | some name =>
      rw [hh] at hlen
      simp only [List.length_map] at hlen
      simp only [ih, scanShorteners_eq, List.flatMap_cons, urlReasons, hh, List.filter_cons,
        isShortenerUrl, hlen, List.append_assoc, Acc.mk.injEq, true_and]
      by_cases hany : suspiciousShorteners.any (fun s => hostMatches (H.toLowerCase name) s) = true
      · simp [hany]; omega
      · simp [hany]

theorem scanUrls_cons_some (H : Host) (url : Str) (rest : List Str) (acc : Acc) (name : Str)
    (h : H.hostname url = some name) :
    scanUrls H (url :: rest) acc =
      scanUrls H rest (scanShorteners (H.toLowerCase name) suspiciousShorteners acc) := by
  simp only [scanUrls, h]

theorem scanUrls_nil (H : Host) (acc : Acc) : scanUrls H [] acc = acc := rfl

theorem scanMoney_eq (text : Str) (acc : Acc) :
    scanMoney text acc =
      ⟨acc.matchedReasons ++ moneyReasons text, acc.totalScore + moneyScore text⟩ := by
  unfold scanMoney moneyReasons moneyScore
  by_cases h : moneyRegex.test text = true
  · simp [h, moneyReason]
  · simp [h]

theorem finalAcc_eq (H : Host) (text : Str) :
    finalAcc H text =
      ⟨specRuleReasons (H.toLowerCase text) DETECTION_RULES ++ moneyReasons text
          ++ (urlRegex.matchAll text).flatMap (urlReasons H),
       specRuleScore (H.toLowerCase text) DETECTION_RULES + moneyScore text
          + 3 * ((urlRegex.matchAll text).filter (isShortenerUrl H)).length⟩ := by
  unfold finalAcc
  rw [scanUrls_eq, scanMoney_eq, scanRules_eq]
  simp

theorem score_eq (H : Host) (text : Str) :
    (isSuspiciousText H text).score =
      specRuleScore (H.toLowerCase text) DETECTION_RULES + moneyScore text
        + 3 * ((urlRegex.matchAll text).filter (isShortenerUrl H)).length := by
  simp only [isSuspiciousText, finalAcc_eq]

theorem reasons_eq (H : Host) (text : Str) :
    (isSuspiciousText H text).reasons =
      arrayFromSet (specRuleReasons (H.toLowerCase text) DETECTION_RULES ++ moneyReasons text
        ++ (urlRegex.matchAll text).flatMap (urlReasons H)) := by
  simp only [isSuspiciousText, finalAcc_eq]

theorem suspicious_eq (H : Host) (text : Str) :
    (isSuspiciousText H text).suspicious = decide (3 ≤ (isSuspiciousText H text).score) := by
  rfl

theorem fires_score_le (lowered : Str) (rules : List Rule) (rule : Rule) (hr : rule ∈ rules)
    (hf : rule.fires lowered = true) : rule.score ≤ specRuleScore lowered rules := by
  unfold specRuleScore
  apply List.le_sum_of_mem
  exact List.mem_map.2 ⟨rule, List.mem_filter.2 ⟨hr, hf⟩, rfl⟩

theorem fires_iff (lowered : Str) (rule : Rule) :
    rule.fires lowered = true ↔ ∃ phrase ∈ rule.phrases, phrase <:+: lowered := by
  unfold Rule.fires
  rw [List.any_eq_true]
  constructor
  · rintro ⟨p, hp, h⟩
    exact ⟨p, hp, (includes_iff_occurs _ _).1 h⟩
  · rintro ⟨p, hp, h⟩
    exact ⟨p, hp, (includes_iff_occurs _ _).2 h⟩

theorem specRuleScore_eq_zero (lowered : Str) (rules : List Rule)
    (h : ∀ rule ∈ rules, rule.fires lowered = false) : specRuleScore lowered rules = 0 := by
  unfold specRuleScore
  have : rules.filter (Rule.fires lowered) = [] := by
    rw [List.filter_eq_nil_iff]
    intro r hr
    simp [h r hr]
  rw [this]
  rfl

theorem specRuleReasons_eq_nil (lowered : Str) (rules : List Rule)
    (h : ∀ rule ∈ rules, rule.fires lowered = false) : specRuleReasons lowered rules = [] := by
  unfold specRuleReasons
  rw [List.filterMap_eq_nil_iff]
  intro r hr
  have hs := firstPhrase_isSome lowered r
  rw [h r hr] at hs
  cases hfp : r.firstPhrase lowered with
  | none => rfl
  | some p => rw [hfp] at hs; simp at hs

theorem rule_scores_pos : ∀ rule ∈ DETECTION_RULES, 0 < rule.score := by
  decide

theorem firstPhrase_eq_none (lowered : Str) (rule : Rule) :
    rule.firstPhrase lowered = none ↔ rule.fires lowered = false := by
  have hs := firstPhrase_isSome lowered rule
  cases hfp : rule.firstPhrase lowered with
  | none => rw [hfp] at hs; simpa using hs.symm
  | some p => rw [hfp] at hs; simpa using hs.symm

theorem specRuleReasons_nil_iff (lowered : Str) (rules : List Rule) :
    specRuleReasons lowered rules = [] ↔ ∀ rule ∈ rules, rule.fires lowered = false := by
  unfold specRuleReasons
  rw [List.filterMap_eq_nil_iff]
  constructor
  · intro h r hr
    exact (firstPhrase_eq_none lowered r).1 (h r hr)
  · intro h r hr
    exact (firstPhrase_eq_none lowered r).2 (h r hr)

theorem specRuleScore_zero_iff (lowered : Str) (rules : List Rule)
    (hpos : ∀ rule ∈ rules, 0 < rule.score) :
    specRuleScore lowered rules = 0 ↔ ∀ rule ∈ rules, rule.fires lowered = false := by
  constructor
  · intro h r hr
    by_contra hf
    have hf' : r.fires lowered = true := by simpa using hf
    have hle := fires_score_le lowered rules r hr hf'
    have := hpos r hr
    omega
  · exact specRuleScore_eq_zero lowered rules

theorem urlReasons_flatMap_length (H : Host) (urls : List Str) :
    (urls.flatMap (urlReasons H)).length = (urls.filter (isShortenerUrl H)).length := by
  induction urls with
  | nil => rfl
  | cons u us ih =>
    rw [List.flatMap_cons, List.length_append, ih, urlReasons_length, List.filter_cons]
    by_cases h : isShortenerUrl H u = true
    · simp [h]; omega
    · simp [h]

theorem score_zero_iff_no_reason (H : Host) (text : Str) :
    (finalAcc H text).totalScore = 0 ↔ (finalAcc H text).matchedReasons = [] := by
  rw [finalAcc_eq]
  have h1 := specRuleScore_zero_iff (H.toLowerCase text) DETECTION_RULES rule_scores_pos
  have h2 := specRuleReasons_nil_iff (H.toLowerCase text) DETECTION_RULES
  have h3 := urlReasons_flatMap_length H (urlRegex.matchAll text)
  have h4 : moneyScore text = 0 ↔ moneyReasons text = [] := by
    unfold moneyScore moneyReasons
    by_cases h : moneyRegex.test text = true
    · simp [h]
    · simp [h]
  have h5 : (urlRegex.matchAll text).flatMap (urlReasons H) = [] ↔
      ((urlRegex.matchAll text).filter (isShortenerUrl H)).length = 0 := by
    rw [← h3, List.length_eq_zero]
  simp only [List.append_eq_nil, h5, ← h4, h2.trans h1.symm]
  omega

/-! ## Claims on clean texts, monotonicity and the reasons -/

/-- C3: a text in which no phrase of the rule table occurs after lower-casing,
which the money pattern does not match, and none of whose extracted links has a
host name (lower-cased, as the code tests it) equal to or a subdomain of a
listed shortener, gets score 0, is not suspicious and has no reasons. -/
theorem clean_text_verdict (H : Host) (text : Str)
    (hPhrases : ∀ rule ∈ DETECTION_RULES, ∀ phrase ∈ rule.phrases,
      ¬ phrase <:+: H.toLowerCase text)
    (hMoney : moneyRegex.test text = false)
    (hLinks : ∀ url ∈ urlRegex.matchAll text, ∀ name, H.hostname url = some name →
      ∀ s ∈ suspiciousShorteners,
        ¬ (H.toLowerCase name = s ∨ ('.' :: s) <:+ H.toLowerCase name)) :
    (isSuspiciousText H text).score = 0 ∧ (isSuspiciousText H text).suspicious = false ∧
      (isSuspiciousText H text).reasons = [] := by
  have hfire : ∀ rule ∈ DETECTION_RULES, rule.fires (H.toLowerCase text) = false := by
    intro r hr
    by_contra hf
    have hf' : r.fires (H.toLowerCase text) = true := by simpa using hf
    obtain ⟨p, hp, hin⟩ := (fires_iff _ _).1 hf'
    exact hPhrases r hr p hp hin
  have hurl : (urlRegex.matchAll text).filter (isShortenerUrl H) = [] := by
    rw [List.filter_eq_nil_iff]
    intro u hu hsu
    unfold isShortenerUrl at hsu
    cases hh : H.hostname u with
    | none => rw [hh] at hsu; simp at hsu
    | some name =>
      rw [hh] at hsu
      obtain ⟨s, hs, hm⟩ := List.any_eq_true.1 hsu
      exact hLinks u hu name hh s hs ((hostMatches_iff _ _).1 hm)
  have hscore : (isSuspiciousText H text).score = 0 := by
    rw [score_eq, specRuleScore_eq_zero _ _ hfire, hurl]
    simp [moneyScore, hMoney]
  refine ⟨hscore, ?_, ?_⟩
  · rw [suspicious_eq, hscore]
    rfl
  · have hz : (finalAcc H text).totalScore = 0 := hscore
    have := (score_zero_iff_no_reason H text).1 hz
    show arrayFromSet (finalAcc H text).matchedReasons = []
    rw [this]
    rfl

/-- C3 at a concrete text: the hypotheses of `clean_text_verdict` hold for
"see you at 5 http://example.com/a" on the reference host. -/
theorem clean_text_verdict_witness :
    (isSuspiciousText refHost "see you at 5 http://example.com/a".toList).score = 0 ∧
    (isSuspiciousText refHost "see you at 5 http://example.com/a".toList).suspicious = false ∧
    (isSuspiciousText refHost "see you at 5 http://example.com/a".toList).reasons = [] :=
  clean_text_verdict refHost "see you at 5 http://example.com/a".toList
    (by
      intro r hr p hp hin
      have := (includes_iff_occurs _ _).2 hin
      revert p r
      decide)
    (by decide)
    (by
      have hu : urlRegex.matchAll "see you at 5 http://example.com/a".toList
          = ["http://example.com/a".toList] := by decide
      rw [hu]
      intro u hu name hn s hs hm
      have := (hostMatches_iff _ _).2 hm
      simp only [List.mem_singleton] at hu
      subst hu
      have hname : name = "example.com".toList := by
        have : refHost.hostname "http://example.com/a".toList = some "example.com".toList := by
          decide
        rw [this] at hn
        exact (Option.some.inj hn).symm
      subst hname
      revert s
      decide)

/-- C6: the score is at least the score of every rule that fires, no scan ever
lowers the running total, and a text whose lower-cased form contains a phrase
of `card_details` is suspicious with a score of at least 5. -/
theorem fired_rule_bounds_score (H : Host) (text : Str) :
    (∀ rule ∈ DETECTION_RULES, (∃ phrase ∈ rule.phrases, phrase <:+: H.toLowerCase text) →
      rule.score ≤ (isSuspiciousText H text).score) ∧
    (∀ (lowered : Str) (rules : List Rule) (acc : Acc),
      acc.totalScore ≤ (scanRules lowered rules acc).totalScore) ∧
    (∀ acc : Acc, acc.totalScore ≤ (scanMoney text acc).totalScore) ∧
    (∀ (urls : List Str) (acc : Acc), acc.totalScore ≤ (scanUrls H urls acc).totalScore) ∧
    ((∃ phrase ∈ ["cvv".toList, "pin code".toList, "card number".toList, "debit card".toList,
        "credit card".toList], phrase <:+: H.toLowerCase text) →
      (isSuspiciousText H text).suspicious = true ∧ 5 ≤ (isSuspiciousText H text).score) := by
  have hgen : ∀ rule ∈ DETECTION_RULES,
      (∃ phrase ∈ rule.phrases, phrase <:+: H.toLowerCase text) →
      rule.score ≤ (isSuspiciousText H text).score := by
    intro r hr hex
    have hle := fires_score_le (H.toLowerCase text) DETECTION_RULES r hr ((fires_iff _ _).2 hex)
    rw [score_eq]
    omega
  refine ⟨hgen, ?_, ?_, ?_, ?_⟩
  · intro lowered rules acc
    rw [scanRules_eq]
    exact Nat.le_add_right _ _
  · intro acc
    rw [scanMoney_eq]
    exact Nat.le_add_right _ _
  · intro urls acc
    rw [scanUrls_eq]
    exact Nat.le_add_right _ _
  · intro hex
    have h5 : 5 ≤ (isSuspiciousText H text).score :=
      hgen ⟨"card_details", ["cvv".toList, "pin code".toList, "card number".toList,
        "debit card".toList, "credit card".toList], 5⟩ (by simp [DETECTION_RULES]) hex
    refine ⟨?_, h5⟩
    rw [suspicious_eq]
    exact decide_eq_true (by omega)

/-- C6 at a concrete text: "My CVV is 123" contains the phrase "cvv" once lower-cased. -/
theorem fired_rule_bounds_score_witness :
    (isSuspiciousText refHost "My CVV is 123".toList).suspicious = true ∧
      5 ≤ (isSuspiciousText refHost "My CVV is 123".toList).score :=
  (fired_rule_bounds_score refHost "My CVV is 123".toList).2.2.2.2
    ⟨"cvv".toList, by simp, (includes_iff_occurs _ _).1 (by decide)⟩

/-- C7: the reasons of a verdict never repeat and are exactly the strings pushed
during the scan; with two links to `bit.ly` the single reason
"link via url shortener (bit.ly)" is returned while the score counts both links. -/
theorem reasons_have_no_duplicates (H : Host) (text : Str) :
    (isSuspiciousText H text).reasons.Nodup ∧
    (∀ r, r ∈ (isSuspiciousText H text).reasons ↔ r ∈ (finalAcc H text).matchedReasons) ∧
    (H.toLowerCase "http://bit.ly/a http://bit.ly/b".toList
        = "http://bit.ly/a http://bit.ly/b".toList →
      H.hostname "http://bit.ly/a".toList = some "bit.ly".toList →
      H.hostname "http://bit.ly/b".toList = some "bit.ly".toList →
      H.toLowerCase "bit.ly".toList = "bit.ly".toList →
      (finalAcc H "http://bit.ly/a http://bit.ly/b".toList).matchedReasons
        = ["link via url shortener (bit.ly)".toList, "link via url shortener (bit.ly)".toList] ∧
      (isSuspiciousText H "http://bit.ly/a http://bit.ly/b".toList).reasons
        = ["link via url shortener (bit.ly)".toList] ∧
      (isSuspiciousText H "http://bit.ly/a http://bit.ly/b".toList).score = 6) := by
  refine ⟨nodup_arrayFromSet _, fun r => mem_arrayFromSet _ r, ?_⟩
  intro hLower hA hB hName
  have hu : urlRegex.matchAll "http://bit.ly/a http://bit.ly/b".toList
      = ["http://bit.ly/a".toList, "http://bit.ly/b".toList] := by decide
  have hr : scanMoney "http://bit.ly/a http://bit.ly/b".toList
      (scanRules "http://bit.ly/a http://bit.ly/b".toList DETECTION_RULES ⟨[], 0⟩) = ⟨[], 0⟩ := by
    decide
  have hacc : finalAcc H "http://bit.ly/a http://bit.ly/b".toList
      = ⟨["link via url shortener (bit.ly)".toList, "link via url shortener (bit.ly)".toList],
         6⟩ := by
    unfold finalAcc
    rw [hLower, hr, hu, scanUrls_cons_some H _ _ _ _ hA, hName,
      scanUrls_cons_some H _ _ _ _ hB, hName, scanUrls_nil]
    decide
  unfold isSuspiciousText
  rw [hacc]
  decide

/-- C7 at a concrete host: the reference host satisfies the four hypotheses of the example. -/
theorem reasons_have_no_duplicates_witness :
    (isSuspiciousText refHost "http://bit.ly/a http://bit.ly/b".toList).reasons
        = ["link via url shortener (bit.ly)".toList] ∧
      (isSuspiciousText refHost "http://bit.ly/a http://bit.ly/b".toList).score = 6 :=
  ((reasons_have_no_duplicates refHost "http://bit.ly/a http://bit.ly/b".toList).2.2 (by decide) (by decide) (by decide)
    (by decide)).2

/-- C10: the score of a verdict is 0 exactly when it has no reason, so a
suspicious verdict has a reason and its warning carries the line that starts
with "Suspicious because: ". -/
theorem score_zero_iff_reasons_empty (H : Host) (text : Str) :
    ((isSuspiciousText H text).score = 0 ↔ (isSuspiciousText H text).reasons = []) ∧
    ((isSuspiciousText H text).suspicious = true →
      (isSuspiciousText H text).reasons ≠ [] ∧
      (createWarningElement (isSuspiciousText H text)).reasonsLine =
        some ("Suspicious because: ".toList
          ++ join ", ".toList (isSuspiciousText H text).reasons)) := by
  have hiff : (isSuspiciousText H text).score = 0 ↔ (isSuspiciousText H text).reasons = [] := by
    show (finalAcc H text).totalScore = 0 ↔ arrayFromSet (finalAcc H text).matchedReasons = []
    rw [arrayFromSet_eq_nil]
    exact score_zero_iff_no_reason H text
  refine ⟨hiff, ?_⟩
  intro hs
  rw [suspicious_eq] at hs
  have h3 : 3 ≤ (isSuspiciousText H text).score := of_decide_eq_true hs
  have hne : (isSuspiciousText H text).reasons ≠ [] := by
    intro hnil
    have := hiff.2 hnil
    omega
  refine ⟨hne, ?_⟩
  unfold createWarningElement
  have hpos : 0 < (isSuspiciousText H text).reasons.length := List.length_pos.2 hne
  simp only [hpos, if_true]

/-- C10 at a concrete text: "send money now" is suspicious on the reference host. -/
theorem score_zero_iff_reasons_empty_witness :
    (isSuspiciousText refHost "send money now".toList).reasons ≠ [] ∧
      (createWarningElement (isSuspiciousText refHost "send money now".toList)).reasonsLine =
        some ("Suspicious because: ".toList
          ++ join ", ".toList (isSuspiciousText refHost "send money now".toList).reasons) :=
  (score_zero_iff_reasons_empty refHost "send money now".toList).2 (by decide)

/-! ## The rule table counts each rule once -/

theorem rules_split :
    DETECTION_RULES = DETECTION_RULES.take 2 ++ cardDetails :: DETECTION_RULES.drop 3 := rfl

theorem only_card_details (lowered : Str)
    (hCvv : "cvv".toList <:+: lowered)
    (hOther : ∀ rule ∈ DETECTION_RULES, rule.id ≠ "card_details" →
      ∀ phrase ∈ rule.phrases, ¬ phrase <:+: lowered) :
    specRuleScore lowered DETECTION_RULES = 5 ∧
      specRuleReasons lowered DETECTION_RULES = ["cvv".toList] := by
  have hquiet : ∀ rule ∈ DETECTION_RULES, rule.id ≠ "card_details" →
      rule.fires lowered = false := by
    intro r hr hid
    by_contra hf
    have hf' : r.fires lowered = true := by simpa using hf
    obtain ⟨p, hp, hin⟩ := (fires_iff _ _).1 hf'
    exact hOther r hr hid p hp hin
  have hpre : ∀ rule ∈ DETECTION_RULES.take 2, rule.fires lowered = false := by
    intro r hr
    have hid : ∀ q ∈ DETECTION_RULES.take 2, q.id ≠ "card_details" := by decide
    exact hquiet r (List.mem_of_mem_take hr) (hid r hr)
  have hpost : ∀ rule ∈ DETECTION_RULES.drop 3, rule.fires lowered = false := by
    intro r hr
    have hid : ∀ q ∈ DETECTION_RULES.drop 3, q.id ≠ "card_details" := by decide
    exact hquiet r (List.mem_of_mem_drop hr) (hid r hr)
  have hinc : includes lowered "cvv".toList = true := (includes_iff_occurs _ _).2 hCvv
  have hcard : cardDetails.fires lowered = true := by
    unfold Rule.fires cardDetails
    rw [List.any_cons, hinc]
    rfl
  have hfirst : cardDetails.firstPhrase lowered = some "cvv".toList := by
    simp only [Rule.firstPhrase, cardDetails, List.find?, hinc]
  constructor
  · unfold specRuleScore
    rw [rules_split, List.filter_append, List.filter_cons, if_pos hcard,
      List.filter_eq_nil_iff.2 (fun r hr => by simp [hpre r hr]),
      List.filter_eq_nil_iff.2 (fun r hr => by simp [hpost r hr])]
    rfl
  · unfold specRuleReasons
    rw [rules_split, List.filterMap_append, List.filterMap_cons, hfirst]
    have h1 := specRuleReasons_eq_nil lowered _ hpre
    have h2 := specRuleReasons_eq_nil lowered _ hpost
    unfold specRuleReasons at h1 h2
    rw [h1, h2]
    rfl

/-- C4: after the loop over the rule table the running total is the sum of the
scores of the rules that fire, each counted once, and the reasons are the first
occurring phrase of each such rule; the final score is that sum plus what the
money pattern and the shortener links add.  A text with both "cvv" and
"pin code" that triggers nothing else has score 5 and the one reason "cvv". -/
theorem rule_counted_once (H : Host) (text : Str) :
    (scanRules (H.toLowerCase text) DETECTION_RULES ⟨[], 0⟩).totalScore
        = specRuleScore (H.toLowerCase text) DETECTION_RULES ∧
    (scanRules (H.toLowerCase text) DETECTION_RULES ⟨[], 0⟩).matchedReasons
        = specRuleReasons (H.toLowerCase text) DETECTION_RULES ∧
    (isSuspiciousText H text).score
        = (scanRules (H.toLowerCase text) DETECTION_RULES ⟨[], 0⟩).totalScore
          + moneyScore text + 3 * ((urlRegex.matchAll text).filter (isShortenerUrl H)).length ∧
    ("cvv".toList <:+: H.toLowerCase text → "pin code".toList <:+: H.toLowerCase text →
      (∀ rule ∈ DETECTION_RULES, rule.id ≠ "card_details" →
        ∀ phrase ∈ rule.phrases, ¬ phrase <:+: H.toLowerCase text) →
      moneyRegex.test text = false →
      (∀ url ∈ urlRegex.matchAll text, isShortenerUrl H url = false) →
      (isSuspiciousText H text).score = 5 ∧
        (isSuspiciousText H text).reasons = ["cvv".toList]) := by
  have hrules := scanRules_eq (H.toLowerCase text) DETECTION_RULES ⟨[], 0⟩
  have hs : (scanRules (H.toLowerCase text) DETECTION_RULES ⟨[], 0⟩).totalScore
      = specRuleScore (H.toLowerCase text) DETECTION_RULES := by
    rw [hrules]
    simp
  have hr : (scanRules (H.toLowerCase text) DETECTION_RULES ⟨[], 0⟩).matchedReasons
      = specRuleReasons (H.toLowerCase text) DETECTION_RULES := by
    rw [hrules]
    simp
  refine ⟨hs, hr, ?_, ?_⟩
  · rw [hs, score_eq]
  · intro hCvv _ hOther hMoney hLinks
    obtain ⟨h5, hreason⟩ := only_card_details (H.toLowerCase text) hCvv hOther
    have hnone : (urlRegex.matchAll text).filter (isShortenerUrl H) = [] := by
      rw [List.filter_eq_nil_iff]
      intro u hu
      simp [hLinks u hu]
    have hflat : (urlRegex.matchAll text).flatMap (urlReasons H) = [] := by
      rw [← List.length_eq_zero, urlReasons_flatMap_length, hnone]
      rfl
    constructor
    · rw [score_eq, h5, hnone]
      simp [moneyScore, hMoney]
    · rw [reasons_eq, hreason, hflat]
      simp only [moneyReasons, hMoney]
      decide

/-- C4 at a concrete text: "my cvv and pin code" on the reference host. -/
theorem rule_counted_once_witness :
    (isSuspiciousText refHost "my cvv and pin code".toList).score = 5 ∧
      (isSuspiciousText refHost "my cvv and pin code".toList).reasons = ["cvv".toList] :=
  (rule_counted_once refHost "my cvv and pin code".toList).2.2.2
    ((includes_iff_occurs _ _).1 (by decide))
    ((includes_iff_occurs _ _).1 (by decide))
    (by
      intro r hr hid p hp hin
      have := (includes_iff_occurs _ _).2 hin
      revert p
      revert r
      decide)
    (by decide)
    (by decide)

/-! ## Shortener links -/

/-- C5: one host name passes the test of at most one listed shortener, so the
loop over the shorteners adds 3 when the host is a shortener or a subdomain of
one and nothing otherwise; a link adds 3 when it is a shortener link and
nothing otherwise, each link on its own; and the text
"http://bit.ly/x http://tinyurl.com/y" gets the two shortener reasons and score 6. -/
theorem shortener_link_adds_three (H : Host) (text : Str) :
    (∀ host, ∀ s ∈ suspiciousShorteners, ∀ t ∈ suspiciousShorteners,
      (host = s ∨ ('.' :: s) <:+ host) → (host = t ∨ ('.' :: t) <:+ host) → s = t) ∧
    (∀ (host : Str) (acc : Acc),
      (scanShorteners host suspiciousShorteners acc).totalScore
        = acc.totalScore + if suspiciousShorteners.any (hostMatches host) then 3 else 0) ∧
    (∀ (url : Str) (rest : List Str) (acc : Acc), ∃ next : Acc,
      scanUrls H (url :: rest) acc = scanUrls H rest next ∧
      next.totalScore = acc.totalScore + if isShortenerUrl H url then 3 else 0) ∧
    (isSuspiciousText H text).score
        = (scanMoney text (scanRules (H.toLowerCase text) DETECTION_RULES ⟨[], 0⟩)).totalScore
          + 3 * ((urlRegex.matchAll text).filter (isShortenerUrl H)).length ∧
    (H.toLowerCase "http://bit.ly/x http://tinyurl.com/y".toList
        = "http://bit.ly/x http://tinyurl.com/y".toList →
      H.hostname "http://bit.ly/x".toList = some "bit.ly".toList →
      H.hostname "http://tinyurl.com/y".toList = some "tinyurl.com".toList →
      H.toLowerCase "bit.ly".toList = "bit.ly".toList →
      H.toLowerCase "tinyurl.com".toList = "tinyurl.com".toList →
      (isSuspiciousText H "http://bit.ly/x http://tinyurl.com/y".toList).reasons
        = ["link via url shortener (bit.ly)".toList,
           "link via url shortener (tinyurl.com)".toList] ∧
      (isSuspiciousText H "http://bit.ly/x http://tinyurl.com/y".toList).score = 6) := by
  have hstep : ∀ (host : Str) (acc : Acc),
      (scanShorteners host suspiciousShorteners acc).totalScore
        = acc.totalScore + if suspiciousShorteners.any (hostMatches host) then 3 else 0 := by
    intro host acc
    rw [scanShorteners_eq, shortener_matches_length]
    by_cases h : suspiciousShorteners.any (hostMatches host) = true
    · simp [h]
    · simp [h]
  refine ⟨?_, hstep, ?_, ?_, ?_⟩
  · intro host s hs t ht hms hmt
    exact shortener_unique host s t hs ht ((hostMatches_iff _ _).2 hms)
      ((hostMatches_iff _ _).2 hmt)
  · intro url rest acc
    cases hh : H.hostname url with
    | none =>
      refine ⟨acc, ?_, ?_⟩
      · simp only [scanUrls, hh]
      · simp [isShortenerUrl, hh]
    | some name =>
      refine ⟨scanShorteners (H.toLowerCase name) suspiciousShorteners acc,
        scanUrls_cons_some H url rest acc name hh, ?_⟩
      rw [hstep]
      simp only [isShortenerUrl, hh]
  · rw [score_eq, scanMoney_eq, scanRules_eq]
    simp
  · intro hLower hX hY hBit hTiny
    have hu : urlRegex.matchAll "http://bit.ly/x http://tinyurl.com/y".toList
        = ["http://bit.ly/x".toList, "http://tinyurl.com/y".toList] := by decide
    have hr : scanMoney "http://bit.ly/x http://tinyurl.com/y".toList
        (scanRules "http://bit.ly/x http://tinyurl.com/y".toList DETECTION_RULES ⟨[], 0⟩)
        = ⟨[], 0⟩ := by
      decide
    have hacc : finalAcc H "http://bit.ly/x http://tinyurl.com/y".toList
        = ⟨["link via url shortener (bit.ly)".toList,
            "link via url shortener (tinyurl.com)".toList], 6⟩ := by
      unfold finalAcc
      rw [hLower, hr, hu, scanUrls_cons_some H _ _ _ _ hX, hBit,
        scanUrls_cons_some H _ _ _ _ hY, hTiny, scanUrls_nil]
      decide
    unfold isSuspiciousText
    rw [hacc]
    decide

/-- C5 at a concrete host: the reference host satisfies the five hypotheses of the example. -/
theorem shortener_link_adds_three_witness :
    (isSuspiciousText refHost "http://bit.ly/x http://tinyurl.com/y".toList).reasons
        = ["link via url shortener (bit.ly)".toList,
           "link via url shortener (tinyurl.com)".toList] ∧
      (isSuspiciousText refHost "http://bit.ly/x http://tinyurl.com/y".toList).score = 6 :=
  (shortener_link_adds_three refHost "http://bit.ly/x http://tinyurl.com/y".toList).2.2.2.2
    (by decide) (by decide) (by decide) (by decide) (by decide)

/-! ## The text "Send $5000 now" -/

/-- C1, as the code behaves: the money pattern does not match "Send $5000 now"
(the `\b` in front of `\$` asks for a word character before the dollar sign, as
in "Send US$5000 now", which does match), and the verdict has score 0 and no
reasons. -/
theorem send_5000_not_flagged (H : Host)
    (hLower : H.toLowerCase "Send $5000 now".toList = "send $5000 now".toList) :
    moneyRegex.test "Send $5000 now".toList = false ∧
      moneyRegex.test "Send US$5000 now".toList = true ∧
      isSuspiciousText H "Send $5000 now".toList
        = { suspicious := false, reasons := [], urls := [], score := 0 } := by
  refine ⟨by decide, by decide, ?_⟩
  have hu : urlRegex.matchAll "Send $5000 now".toList = [] := by decide
  have hr : scanMoney "Send $5000 now".toList
      (scanRules "send $5000 now".toList DETECTION_RULES ⟨[], 0⟩) = ⟨[], 0⟩ := by decide
  have hacc : finalAcc H "Send $5000 now".toList = ⟨[], 0⟩ := by
    unfold finalAcc
    rw [hLower, hr, hu, scanUrls_nil]
  unfold isSuspiciousText
  rw [hacc, hu]
  decide

/-- C1 at a concrete host: the reference host lower-cases the text as the hypothesis says. -/
theorem send_5000_not_flagged_witness :
    isSuspiciousText refHost "Send $5000 now".toList
      = { suspicious := false, reasons := [], urls := [], score := 0 } :=
  (send_5000_not_flagged refHost (by decide)).2.2

/-! ## The money pattern -/

theorem mem_run_seq (a b : Rx) (cur stop : Cursor) :
    stop ∈ (Rx.seq a b).run cur ↔ ∃ mid ∈ a.run cur, stop ∈ b.run mid := by
  simp only [Rx.run, List.mem_flatMap]

theorem mem_run_alt (a b : Rx) (cur stop : Cursor) :
    stop ∈ (Rx.alt a b).run cur ↔ stop ∈ a.run cur ∨ stop ∈ b.run cur := by
  simp only [Rx.run, List.mem_append]

theorem mem_run_opt_skip (a : Rx) (cur : Cursor) : cur ∈ (Rx.opt a).run cur := by
  simp only [Rx.run, List.mem_append, List.mem_singleton, or_true]

theorem mem_run_oneOf_head (r : Rx) (rest : List Rx) (cur stop : Cursor)
    (h : stop ∈ r.run cur) : stop ∈ (Rx.oneOf r rest).run cur := by
  cases rest with
  | nil => exact h
  | cons s rest => exact (mem_run_alt _ _ _ _).2 (Or.inl h)

theorem mem_run_oneOf_tail (r s : Rx) (rest : List Rx) (cur stop : Cursor)
    (h : stop ∈ (Rx.oneOf s rest).run cur) : stop ∈ (Rx.oneOf r (s :: rest)).run cur :=
  (mem_run_alt _ _ _ _).2 (Or.inr h)

theorem sameIgnoringCase_self (c : Char) : sameIgnoringCase c c = true := by
  simp [sameIgnoringCase]

theorem mem_run_char (c : Char) (b a : List Char) :
    (⟨c :: b, a⟩ : Cursor) ∈ (Rx.char c).run ⟨b, c :: a⟩ := by
  simp only [Rx.run, sameIgnoringCase_self, if_true, List.mem_singleton]

theorem mem_run_word (w b a : List Char) :
    (⟨w.reverse ++ b, a⟩ : Cursor) ∈ (Rx.word w).run ⟨b, w ++ a⟩ := by
  induction w generalizing b with
  | nil => simp [Rx.word, Rx.run]
  | cons c w ih =>
    unfold Rx.word
    rw [mem_run_seq]
    refine ⟨⟨c :: b, w ++ a⟩, mem_run_char c b (w ++ a), ?_⟩
    have := ih (c :: b)
    simpa using this

theorem mem_starRun_self (k : CharClass) (b a : List Char) :
    (⟨b, a⟩ : Cursor) ∈ starRun k b a := by
  cases a with
  | nil => simp [starRun]
  | cons x a =>
    unfold starRun
    by_cases h : k.test x = true
    · simp [h]
    · simp [h]

theorem mem_atLeastRun (k : CharClass) (ds : List Char) (hk : ∀ d ∈ ds, k.test d = true)
    (n : Nat) (hn : n ≤ ds.length) (b a : List Char) :
    (⟨ds.reverse ++ b, a⟩ : Cursor) ∈ atLeastRun k n b (ds ++ a) := by
  induction ds generalizing n b with
  | nil =>
    have hn0 : n = 0 := by simpa using hn
    subst hn0
    simpa [atLeastRun] using mem_starRun_self k b a
  | cons d ds ih =>
    have hd : k.test d = true := hk d (List.mem_cons_self _ _)
    have hds : ∀ e ∈ ds, k.test e = true := fun e he => hk e (List.mem_cons_of_mem _ he)
    cases n with
    | zero =>
      have := ih hds 0 (Nat.zero_le _) (d :: b)
      simp only [atLeastRun] at this
      simp only [atLeastRun, List.cons_append, starRun, hd, if_true, List.mem_append,
        List.reverse_cons, List.append_assoc, List.singleton_append]
      exact Or.inl this
    | succ m =>
      have := ih hds m (by simpa using hn) (d :: b)
      simpa [atLeastRun, hd] using this

theorem testFrom_of_run (r : Rx) (pre b rest : List Char)
    (h : r.run ⟨pre.reverse ++ b, rest⟩ ≠ []) : r.testFrom b (pre ++ rest) = true := by
  induction pre generalizing b with
  | nil =>
    have hne : (r.run ⟨b, rest⟩).isEmpty = false := by
      cases hrun : r.run ⟨b, rest⟩ with
      | nil => exact absurd (by simpa using hrun) h
      | cons _ _ => rfl
    cases rest with
    | nil => simp [Rx.testFrom, hne]
    | cons x rest => simp [Rx.testFrom, hne]
  | cons x pre ih =>
    have := ih (x :: b) (by simpa using h)
    simp [Rx.testFrom, this]

theorem test_of_mem_run (r : Rx) (pre rest : List Char) (stop : Cursor)
    (h : stop ∈ r.run ⟨pre.reverse, rest⟩) : r.test (pre ++ rest) = true := by
  apply testFrom_of_run r pre [] rest
  intro hnil
  rw [List.append_nil] at hnil
  rw [hnil] at h
  exact absurd h (List.not_mem_nil _)

theorem mem_run_currencyBefore (token : Str) (ht : token ∈ wordTokens) (b a : List Char) :
    (⟨token.reverse ++ b, a⟩ : Cursor) ∈ currencyBefore.run ⟨b, token ++ a⟩ := by
  simp only [wordTokens, List.mem_cons, List.mem_singleton, List.not_mem_nil, or_false] at ht
  unfold currencyBefore
  rcases ht with rfl | rfl | rfl | rfl | rfl | rfl
  · apply mem_run_oneOf_head
    rw [mem_run_seq]
    exact ⟨_, mem_run_word _ b a, mem_run_opt_skip _ _⟩
  · apply mem_run_oneOf_tail
    apply mem_run_oneOf_head
    exact mem_run_word _ b a
  · iterate 3 apply mem_run_oneOf_tail
    apply mem_run_oneOf_head
    exact mem_run_word _ b a
  · iterate 5 apply mem_run_oneOf_tail
    apply mem_run_oneOf_head
    exact mem_run_word _ b a
  · iterate 7 apply mem_run_oneOf_tail
    apply mem_run_oneOf_head
    exact mem_run_word _ b a
  · iterate 8 apply mem_run_oneOf_tail
    show _ ∈ (Rx.seq (Rx.word "dollar".toList) (.opt (.char 's'))).run _
    rw [mem_run_seq]
    refine ⟨⟨"dollar".toList.reverse ++ b, 's' :: a⟩, mem_run_word "dollar".toList b ('s' :: a), ?_⟩
    simp only [Rx.run, List.mem_append, List.mem_singleton]
    left
    simp [sameIgnoringCase]

theorem mem_run_currencyAfter (token : Str) (ht : token ∈ suffixTokens) (b a : List Char) :
    (⟨token.reverse ++ b, a⟩ : Cursor) ∈ currencyAfter.run ⟨b, token ++ a⟩ := by
  simp only [suffixTokens, List.mem_cons, List.mem_singleton, List.not_mem_nil, or_false] at ht
  unfold currencyAfter
  rcases ht with rfl | rfl | rfl | rfl | rfl | rfl
  · apply mem_run_oneOf_head
    rw [mem_run_seq]
    exact ⟨_, mem_run_word _ b a, mem_run_opt_skip _ _⟩
  · apply mem_run_oneOf_tail
    apply mem_run_oneOf_head
    exact mem_run_word _ b a
  · iterate 2 apply mem_run_oneOf_tail
    apply mem_run_oneOf_head
    exact mem_run_char '₹' b a
  · iterate 3 apply mem_run_oneOf_tail
    apply mem_run_oneOf_head
    exact mem_run_char '$' b a
  · iterate 4 apply mem_run_oneOf_tail
    apply mem_run_oneOf_head
    exact mem_run_word _ b a
  · iterate 5 apply mem_run_oneOf_tail
    exact mem_run_char '£' b a

theorem wordTokens_head_word :
    ∀ token ∈ wordTokens, wordAt token.head? = true := by
  decide

/-- C2, as the code behaves: the pattern does not match a number followed by
`usd` or `dollars`, a currency word glued to a preceding word character, or a
currency symbol that starts the text and is followed by a number. -/
theorem money_pattern_misses :
    moneyRegex.test "500usd".toList = false ∧
    moneyRegex.test "500 dollars".toList = false ∧
    moneyRegex.test "500rupees".toList = false ∧
    moneyRegex.test "xrs500".toList = false ∧
    moneyRegex.test "$500".toList = false ∧
    (isSuspiciousText refHost "500usd".toList).reasons = [] ∧
    (isSuspiciousText refHost "500usd".toList).score = 0 := by
  decide

/-- C2, amended: a currency word among rs, inr, usd, eur, rupees, dollars
directly followed by three or more digits matches the money pattern when the
word starts the text or follows a character that is not a word character; three
or more digits directly followed by a token among rs, inr, ₹, $, eur, £ match it
wherever they stand; and whenever the pattern matches, the money step pushes
"large money amount mentioned" and adds 3, so the reason is in the verdict and
the score is the rule score plus 3 plus 3 for each shortener link. -/
theorem money_pattern_matches :
    (∀ token ∈ wordTokens, ∀ digits : Str, 3 ≤ digits.length →
      (∀ d ∈ digits, isDigit d = true) → ∀ pre post : Str, wordAt pre.getLast? = false →
      moneyRegex.test (pre ++ token ++ digits ++ post) = true) ∧
    (∀ token ∈ suffixTokens, ∀ digits : Str, 3 ≤ digits.length →
      (∀ d ∈ digits, isDigit d = true) → ∀ pre post : Str,
      moneyRegex.test (pre ++ digits ++ token ++ post) = true) ∧
    (∀ (H : Host) (text : Str), moneyRegex.test text = true →
      (∀ acc : Acc, scanMoney text acc
        = ⟨acc.matchedReasons ++ ["large money amount mentioned".toList], acc.totalScore + 3⟩) ∧
      "large money amount mentioned".toList ∈ (isSuspiciousText H text).reasons ∧
      (isSuspiciousText H text).score
        = specRuleScore (H.toLowerCase text) DETECTION_RULES + 3
          + 3 * ((urlRegex.matchAll text).filter (isShortenerUrl H)).length ∧
      (isSuspiciousText H text).suspicious = true) := by
  refine ⟨?_, ?_, ?_⟩
  · intro token ht digits hlen hdig pre post hpre
    have hhead := wordTokens_head_word token ht
    have hb : Rx.wordBoundary.run ⟨pre.reverse, token ++ (digits ++ post)⟩
        = [⟨pre.reverse, token ++ (digits ++ post)⟩] := by
      have hafter : (token ++ (digits ++ post)).head? = token.head? := by
        cases token with
        | nil => simp [wordAt] at hhead
        | cons c t => rfl
      simp only [Rx.run, List.head?_reverse, hafter, hpre, hhead]
      rfl
    have hmem : (⟨digits.reverse ++ (token.reverse ++ pre.reverse), post⟩ : Cursor)
        ∈ moneyBefore.run ⟨pre.reverse, token ++ (digits ++ post)⟩ := by
      unfold moneyBefore
      rw [mem_run_seq]
      refine ⟨_, by rw [hb]; exact List.mem_singleton_self _, ?_⟩
      rw [mem_run_seq]
      refine ⟨_, mem_run_currencyBefore token ht pre.reverse (digits ++ post), ?_⟩
      rw [mem_run_seq]
      refine ⟨_, mem_run_opt_skip _ _, ?_⟩
      exact mem_atLeastRun .digit digits hdig 3 hlen _ post
    have := test_of_mem_run moneyRegex pre (token ++ (digits ++ post)) _
      ((mem_run_alt _ _ _ _).2 (Or.inl hmem))
    simpa [List.append_assoc] using this
  · intro token ht digits hlen hdig pre post
    have hmem : (⟨token.reverse ++ (digits.reverse ++ pre.reverse), post⟩ : Cursor)
        ∈ moneyAfter.run ⟨pre.reverse, digits ++ (token ++ post)⟩ := by
      unfold moneyAfter
      rw [mem_run_seq]
      refine ⟨_, mem_atLeastRun .digit digits hdig 3 hlen pre.reverse (token ++ post), ?_⟩
      rw [mem_run_seq]
      exact ⟨_, mem_run_opt_skip _ _, mem_run_currencyAfter token ht _ post⟩
    have := test_of_mem_run moneyRegex pre (digits ++ (token ++ post)) _
      ((mem_run_alt _ _ _ _).2 (Or.inr hmem))
    simpa [List.append_assoc] using this
  · intro H text hm
    have hscore : (isSuspiciousText H text).score
        = specRuleScore (H.toLowerCase text) DETECTION_RULES + 3
          + 3 * ((urlRegex.matchAll text).filter (isShortenerUrl H)).length := by
      rw [score_eq]
      simp [moneyScore, hm]
    refine ⟨?_, ?_, hscore, ?_⟩
    · intro acc
      simp [scanMoney, hm]
    · rw [reasons_eq, mem_arrayFromSet]
      simp [moneyReasons, hm, moneyReason]
    · rw [suspicious_eq, hscore]
      exact decide_eq_true (by omega)

/-- C2, amended, at concrete texts: "pay rs5000 today" and "fee 250$" match the pattern. -/
theorem money_pattern_matches_witness :
    moneyRegex.test "pay rs5000 today".toList = true ∧
    moneyRegex.test "fee 250$".toList = true ∧
    "large money amount mentioned".toList
      ∈ (isSuspiciousText refHost "fee 250$".toList).reasons :=
  ⟨money_pattern_matches.1 "rs".toList (by decide) "5000".toList (by decide) (by decide)
      "pay ".toList " today".toList (by decide),
    money_pattern_matches.2.1 "$".toList (by decide) "250".toList (by decide) (by decide)
      "fee ".toList [],
    (money_pattern_matches.2.2 refHost "fee 250$".toList (by decide)).2.1⟩

/-! ## Advice -/

theorem adviceFor_subset (reason : Str) : ∀ tip ∈ adviceFor reason, tip ∈ targetedTips := by
  intro tip ht
  unfold adviceFor at ht
  unfold targetedTips
  split_ifs at ht <;> simp_all

theorem extraAdvice_subset (reasons : List Str) :
    ∀ tip ∈ extraAdvice reasons, tip ∈ targetedTips := by
  induction reasons with
  | nil => intro tip ht; simp [extraAdvice] at ht
  | cons r rs ih =>
    intro tip ht
    unfold extraAdvice at ht
    rcases List.mem_append.1 ht with h | h
    · exact adviceFor_subset r tip h
    · exact ih tip h

theorem targetedTips_fresh : ∀ tip ∈ targetedTips, tip ∉ baseAdvice := by
  decide

theorem baseAdvice_nodup : baseAdvice.Nodup := by
  decide

theorem buildAdviceText_eq (reasons : List Str) :
    buildAdviceText reasons = baseAdvice ++ arrayFromSet (extraAdvice reasons) := by
  unfold buildAdviceText
  exact arrayFromSet_append_fresh baseAdvice (extraAdvice reasons) baseAdvice_nodup
    (fun x hx => targetedTips_fresh x (extraAdvice_subset reasons x hx))

/-- C8: the advice list starts with the five baseline tips in their order, has
no duplicates, and continues with the targeted tips the reasons call for, each
once and in order of first occurrence, so with at most four of them; without
reasons it is the baseline list. -/
theorem advice_shape (reasons : List Str) :
    (buildAdviceText reasons).take 5 = baseAdvice ∧
    (buildAdviceText reasons).Nodup ∧
    (buildAdviceText reasons).drop 5 = arrayFromSet (extraAdvice reasons) ∧
    (∀ tip ∈ (buildAdviceText reasons).drop 5, tip ∈ targetedTips) ∧
    ((buildAdviceText reasons).drop 5).length ≤ 4 ∧
    (buildAdviceText reasons).length ≤ 9 ∧
    buildAdviceText [] = baseAdvice := by
  have hlen : baseAdvice.length = 5 := rfl
  have htake : (buildAdviceText reasons).take 5 = baseAdvice := by
    rw [buildAdviceText_eq, ← hlen, List.take_left]
  have hdrop : (buildAdviceText reasons).drop 5 = arrayFromSet (extraAdvice reasons) := by
    rw [buildAdviceText_eq, ← hlen, List.drop_left]
  have hsub : ∀ tip ∈ arrayFromSet (extraAdvice reasons), tip ∈ targetedTips :=
    fun tip ht => extraAdvice_subset reasons tip ((mem_arrayFromSet _ _).1 ht)
  have hfour : (arrayFromSet (extraAdvice reasons)).length ≤ 4 :=
    ((nodup_arrayFromSet (extraAdvice reasons)).subperm hsub).length_le
  refine ⟨htake, ?_, hdrop, ?_, ?_, ?_, ?_⟩
  · unfold buildAdviceText
    exact nodup_arrayFromSet _
  · rw [hdrop]
    exact hsub
  · rw [hdrop]
    exact hfour
  · rw [buildAdviceText_eq, List.length_append, hlen]
    omega
  · rw [buildAdviceText_eq]
    rfl

/-! ## Marking is idempotent -/

theorem markMessageElement_checked (bubble : Bubble) (analysis : Verdict) :
    (markMessageElement bubble analysis).checked = true := by
  unfold markMessageElement
  by_cases hc : bubble.checked = true
  · simp [hc]
  · by_cases hs : analysis.suspicious = true
    · simp [hc, hs]
    · simp [hc, hs]

theorem markMessageElement_of_checked (bubble : Bubble) (analysis : Verdict)
    (h : bubble.checked = true) : markMessageElement bubble analysis = bubble := by
  unfold markMessageElement
  simp [h]

theorem foldl_mark_of_checked (bubble : Bubble) (verdicts : List Verdict)
    (h : bubble.checked = true) : verdicts.foldl markMessageElement bubble = bubble := by
  induction verdicts with
  | nil => rfl
  | cons v vs ih => rw [List.foldl_cons, markMessageElement_of_checked bubble v h, ih]

theorem markMessageElement_warnings (bubble : Bubble) (analysis : Verdict) :
    (markMessageElement bubble analysis).warnings =
      if bubble.checked = false ∧ analysis.suspicious = true then
        bubble.warnings ++ [createWarningElement analysis]
      else bubble.warnings := by
  unfold markMessageElement
  by_cases hc : bubble.checked = true
  · simp [hc]
  · by_cases hs : analysis.suspicious = true
    · simp [hc, hs]
    · simp [hc, hs]

/-- C9: on the bubble it resolved, `markMessageElement` sets the checked flag;
a second call changes nothing, a checked bubble is never changed, a warning is
appended only for a suspicious verdict, and any sequence of calls appends at
most one warning, so a bubble that starts without a warning ends with at most one. -/
theorem mark_is_idempotent (bubble : Bubble) (a1 a2 : Verdict) :
    markMessageElement (markMessageElement bubble a1) a2 = markMessageElement bubble a1 ∧
    (bubble.checked = true → markMessageElement bubble a1 = bubble) ∧
    (markMessageElement bubble a1).checked = true ∧
    ((markMessageElement bubble a1).warnings ≠ bubble.warnings → a1.suspicious = true) ∧
    (∀ verdicts : List Verdict,
      (verdicts.foldl markMessageElement bubble).warnings.length ≤ bubble.warnings.length + 1) ∧
    (∀ verdicts : List Verdict, bubble.warnings = [] →
      (verdicts.foldl markMessageElement bubble).warnings.length ≤ 1) := by
  have hseq : ∀ verdicts : List Verdict,
      (verdicts.foldl markMessageElement bubble).warnings.length
        ≤ bubble.warnings.length + 1 := by
    intro verdicts
    cases verdicts with
    | nil => exact Nat.le_succ _
    | cons v vs =>
      rw [List.foldl_cons,
        foldl_mark_of_checked _ vs (markMessageElement_checked bubble v),
        markMessageElement_warnings]
      split_ifs
      · simp
      · exact Nat.le_succ _
  refine ⟨markMessageElement_of_checked _ a2 (markMessageElement_checked bubble a1),
    markMessageElement_of_checked bubble a1, markMessageElement_checked bubble a1, ?_, hseq, ?_⟩
  · intro hne
    rw [markMessageElement_warnings] at hne
    by_contra hs
    apply hne
    rw [if_neg]
    exact fun h => hs h.2
  · intro verdicts hempty
    have := hseq verdicts
    rw [hempty] at this
    simpa using this

/-- C9 at concrete bubbles: a fresh bubble marked with a suspicious verdict and
then with another one holds one warning, and a checked bubble stays as it is. -/
theorem mark_is_idempotent_witness :
    ([isSuspiciousText refHost "send money now".toList,
        isSuspiciousText refHost "my cvv".toList].foldl markMessageElement
      ⟨false, none, none, []⟩).warnings.length ≤ 1 ∧
    markMessageElement ⟨true, none, none, []⟩ (isSuspiciousText refHost "my cvv".toList)
      = ⟨true, none, none, []⟩ :=
  ⟨(mark_is_idempotent ⟨false, none, none, []⟩
      (isSuspiciousText refHost "my cvv".toList)
      (isSuspiciousText refHost "my cvv".toList)).2.2.2.2.2 _ rfl,
    (mark_is_idempotent ⟨true, none, none, []⟩
      (isSuspiciousText refHost "my cvv".toList)
      (isSuspiciousText refHost "my cvv".toList)).2.1 rfl⟩

end ScamGuard
